import Mathlib

/-!
Verification of the coordinate-synchronization core of the ps-analyzer
repository: the Timeline/Viewport state, the depth-map builder, the
nucleotide-row depth-expansion renderer, the selection/copy controller,
the minimap click handler and the chromatogram trace renderer.

Numbers are modelled by rationals; the sentinel value `Infinity` used by
`TimelineService.maxPosition` is modelled by an explicit extended-rational
type `XQ` whose operations mirror the JavaScript arithmetic on the values
that actually arise in this code (finite numbers and `+Infinity`).
`Math.floor` on rationals is modelled by `Int.floor`.
-/

/-- Extended rationals: a finite rational or `+Infinity`.  This mirrors the
JavaScript numbers that flow through `TimelineService`, whose `maxPosition`
starts as `Infinity`. -/
inductive XQ where
  | fin : ℚ → XQ
  | inf : XQ
deriving DecidableEq

namespace XQ

/-- Order on extended rationals (`x ≤ Infinity` for every `x`). -/
def leDef (a b : XQ) : Prop :=
  match a, b with
  | _, inf => True
  | inf, fin _ => False
  | fin x, fin y => x ≤ y

instance : LE XQ := ⟨leDef⟩

instance decLe : ∀ a b : XQ, Decidable (a ≤ b)
  | fin x, fin y => inferInstanceAs (Decidable (x ≤ y))
  | fin _, inf => isTrue trivial
  | inf, fin _ => isFalse (fun h => h)
  | inf, inf => isTrue trivial

/-- JavaScript addition of a finite number to an extended number. -/
def addQ : XQ → ℚ → XQ
  | fin a, q => fin (a + q)
  | inf, _ => inf

/-- JavaScript subtraction of a finite number from an extended number
(`Infinity - q = Infinity`). -/
def subQ : XQ → ℚ → XQ
  | fin a, q => fin (a - q)
  | inf, _ => inf

/-- JavaScript `Math.max` on extended numbers. -/
def maxX (a b : XQ) : XQ :=
  match a, b with
  | fin x, fin y => fin (max x y)
  | _, _ => inf

/-- JavaScript `Math.min` on extended numbers. -/
def minX (a b : XQ) : XQ :=
  match a, b with
  | fin x, fin y => fin (min x y)
  | inf, y => y
  | x, inf => x

end XQ

/-- State of `TimelineService` (file `timeline.service.ts`, embedded in the
repository README): the shared viewport of the sequence timeline. -/
structure TimelineState where
  /-- Number of nucleotides visible in the viewport at once. -/
  zoom : ℚ
  /-- Current starting position of the viewport (0-indexed). -/
  position : XQ
  /-- The absolute maximum position (boundary) of the timeline sequence. -/
  maxPosition : XQ
deriving DecidableEq

namespace TimelineService

/-- The initial `TimelineService` state: `zoom = 100`, `position = 0`,
`maxPosition = Infinity`. -/
def initialState : TimelineState :=
  { zoom := 100, position := .fin 0, maxPosition := .inf }

/-- `TimelineService.setPosition`:
`maxAllowedStart = Math.max(0, maxPosition - zoom)`;
`position = Math.min(Math.max(0, position), maxAllowedStart)`.
The argument is extended because `scrollToBoundary` feeds `maxPosition`
(possibly `Infinity`) into it. -/
def setPosition (p : XQ) (s : TimelineState) : TimelineState :=
  let maxAllowedStart := XQ.maxX (.fin 0) (s.maxPosition.subQ s.zoom)
  { s with position := XQ.minX (XQ.maxX (.fin 0) p) maxAllowedStart }

/-- `TimelineService.setMaxPosition`: no-op when `max <= 0`, otherwise set
the boundary and re-clamp the current position. -/
def setMaxPosition (m : ℚ) (s : TimelineState) : TimelineState :=
  if m ≤ 0 then s
  else
    let s1 := { s with maxPosition := XQ.fin m }
    setPosition s1.position s1

/-- `TimelineService.setZoom`: `zoom = Math.max(1, zoom)`, then re-clamp
the position. -/
def setZoom (z : ℚ) (s : TimelineState) : TimelineState :=
  let s1 := { s with zoom := max 1 z }
  setPosition s1.position s1

/-- `TimelineService.setRange`: `zoom = Math.max(1, end - start)`,
`position = start`, then a final `setPosition` pass. -/
def setRange (a b : ℚ) (s : TimelineState) : TimelineState :=
  let s1 := { s with zoom := max 1 (b - a), position := XQ.fin a }
  setPosition s1.position s1

/-- `TimelineService.moveBy`: `setPosition(position + bases)`. -/
def moveBy (d : ℚ) (s : TimelineState) : TimelineState :=
  setPosition (s.position.addQ d) s

/-- `TimelineService.scrollToBoundary`: `setPosition(maxPosition)` or
`setPosition(0)`. -/
def scrollToBoundary (toEnd : Bool) (s : TimelineState) : TimelineState :=
  if toEnd then setPosition s.maxPosition s else setPosition (.fin 0) s

/-- `TimelineService.setHighlight`: replaces the highlighted range. -/
def setHighlight (a b : ℚ) (_h : Option (ℚ × ℚ)) : Option (ℚ × ℚ) :=
  some (a, b)

/-- `TimelineService.clearHighlight`. -/
def clearHighlight (_h : Option (ℚ × ℚ)) : Option (ℚ × ℚ) :=
  none

/-- States reachable from the initial `TimelineService` state through its
public operations. -/
inductive Reachable : TimelineState → Prop
  | init : Reachable initialState
  | setMaxPosition (m : ℚ) {s} : Reachable s → Reachable (setMaxPosition m s)
  | setZoom (z : ℚ) {s} : Reachable s → Reachable (setZoom z s)
  | setPosition (p : ℚ) {s} : Reachable s → Reachable (setPosition (.fin p) s)
  | setRange (a b : ℚ) {s} : Reachable s → Reachable (setRange a b s)
  | moveBy (d : ℚ) {s} : Reachable s → Reachable (moveBy d s)
  | scrollToBoundary (t : Bool) {s} : Reachable s → Reachable (scrollToBoundary t s)

end TimelineService

/-! Data model of the analysis results (`analysis.model.ts`), restricted to
the fields this core reads. -/

/-- `ConsensusAlignItem`: one entry of a read's consensus alignment, keyed
by 1-based reference position.  `sangerPos1`/`sangerPos2` are the optional
Sanger-peak positions. -/
structure ConsensusAlignItem where
  cons : List Char
  alt1 : List Char
  alt2 : List Char
  sangerPos1 : Option (List ℕ) := none
  sangerPos2 : Option (List ℕ) := none
deriving DecidableEq

/-- A loaded track (one `AnalysisEntry`'s `result`, flattened): its
consensus-alignment record, modelled as an association list from 1-based
reference position to `ConsensusAlignItem` (JavaScript object keys are
unique). -/
structure Track where
  consensusAlign : Option (List (ℕ × ConsensusAlignItem))
deriving DecidableEq

namespace Analysis

/-- One step of the `alignmentDepthMap` loop body
(`depthMap.set(refPos, Math.max(currentMax, ...cons.length))` with
`currentMax = depthMap.get(refPos) || 0`), acting on the map modelled as a
function to `Option ℕ`. -/
def dmStep (m : ℕ → Option ℕ) (pr : ℕ × ConsensusAlignItem) : ℕ → Option ℕ :=
  fun r => if r = pr.1 then some (Nat.max ((m pr.1).getD 0) pr.2.cons.length) else m r

/-- Processing of a single track by `alignmentDepthMap`
(`if (!trace.result.consensusAlign) continue;` then the inner key loop). -/
def dmTrack (m : ℕ → Option ℕ) (t : Track) : ℕ → Option ℕ :=
  match t.consensusAlign with
  | none => m
  | some l => l.foldl dmStep m

/-- `alignmentDepthMap` (analysis.ts): returns the empty map when no
reference trace is loaded; otherwise folds the reference track followed by
every loaded track, recording at each reference position the maximum
`cons.length` seen. -/
def alignmentDepthMap (reference : Option Track) (traces : List Track) :
    ℕ → Option ℕ :=
  match reference with
  | none => fun _ => none
  | some ref => (ref :: traces).foldl dmTrack (fun _ => none)

/-- Lengths of the `cons` arrays found at reference position `r` in one
association list (specification-side helper for the amended depth-map
claim). -/
def consLensAt (l : List (ℕ × ConsensusAlignItem)) (r : ℕ) : List ℕ :=
  (l.filter (fun p => p.1 == r)).map (fun p => p.2.cons.length)

/-- All `cons` lengths recorded at reference position `r` across a list of
tracks. -/
def consLens (ts : List Track) (r : ℕ) : List ℕ :=
  ts.flatMap (fun t => consLensAt (t.consensusAlign.getD []) r)

end Analysis

/-! The nucleotide-row renderer (`nucleotide-row.ts`). -/

/-- One rendered sub-cell of a nucleotide row, keeping the fields of the
objects pushed by `visibleAlleles` that the carried coordinates and glyph
depend on (`type`, `showAlways`, `isSequenceSelection` and the copied
`sangerPos` arrays are omitted: they are constants or pass-throughs). -/
structure Cell where
  char : Char
  /-- 1-based reference position (`index` in the source). -/
  index : ℕ
  /-- Depth slot at this reference position. -/
  subIndex : ℕ
  /-- Shared viewport index (`currentGlobalIndex` in the source). -/
  globalIndex : ℤ
  isMatch : Bool
  isInsertion : Bool
  isHighlighted : Bool
deriving DecidableEq

namespace NucleotideRow

/-- Character drawn for depth slot `k` of a channel array: the array's
`k`-th character when present, else the gap filler. -/
def charAt (arr : List Char) (k : ℕ) : Char :=
  if h : k < arr.length then arr.get ⟨k, h⟩ else '-'

/-- The sub-cell pushed onto row `j` (0 = consensus, 1 = alt1, 2 = alt2)
for reference position `refPos`, viewport index `g`, and depth slot `k`. -/
def mkCell (j : ℕ) (item : Option ConsensusAlignItem) (refPos : ℕ) (g : ℤ)
    (k : ℕ) (isHl : Bool) : Cell :=
  let consChar : Char := match item with
    | none => '-'
    | some e => charAt e.cons k
  match j with
  | 0 =>
      { char := consChar, index := refPos, subIndex := k, globalIndex := g
        isMatch := false, isInsertion := false, isHighlighted := isHl }
  | 1 =>
      let c : Char := match item with
        | none => '-'
        | some e => charAt e.alt1 k
      { char := c, index := refPos, subIndex := k, globalIndex := g
        isMatch := c == consChar
        isInsertion := c != '-' && consChar == '-'
        isHighlighted := isHl }
  | _ =>
      let c : Char := match item with
        | none => '-'
        | some e => charAt e.alt2 k
      { char := c, index := refPos, subIndex := k, globalIndex := g
        isMatch := c == consChar
        isInsertion := c != '-' && consChar == '-'
        isHighlighted := isHl }

/-- The sub-cells emitted for loop iteration `i` of `visibleAlleles` into
row `j`: depth slots `0 .. maxDepth-1` at `refPos = viewStart + i + 1`,
where `maxDepth = depthMap.get(refPos) || 1`. -/
def block (align : List (ℕ × ConsensusAlignItem)) (dm : ℕ → Option ℕ)
    (hl : Option (ℤ × ℤ)) (viewStart : ℕ) (j : ℕ) (i : ℕ) : List Cell :=
  let g : ℕ := viewStart + i
  let refPos : ℕ := g + 1
  let item := List.lookup refPos align
  let d0 := (dm refPos).getD 0
  let maxDepth := if d0 = 0 then 1 else d0
  let isHl : Bool := match hl with
    | none => false
    | some (a, b) => decide (a ≤ (g : ℤ) ∧ (g : ℤ) ≤ b)
  (List.range maxDepth).map (fun k => mkCell j item refPos (g : ℤ) k isHl)

/-- Row `j` of `visibleAlleles`: the loop over the visible cells
`viewStart .. viewStart + totalCells - 1`. -/
def rowOf (align : List (ℕ × ConsensusAlignItem)) (dm : ℕ → Option ℕ)
    (hl : Option (ℤ × ℤ)) (viewStart totalCells : ℕ) (j : ℕ) : List Cell :=
  (List.range totalCells).flatMap (block align dm hl viewStart j)

/-- `visibleAlleles` (nucleotide-row.ts): empty when the trace or its
consensus alignment is missing; otherwise the consensus row, plus the alt1
and alt2 rows when the row is expanded.  `viewStart` and `totalCells`
stand for `Math.floor(view.start)` and
`Math.ceil(view.end) - Math.floor(view.start)`. -/
def visibleAlleles (trace : Option Track) (dm : ℕ → Option ℕ)
    (expanded : Bool) (hl : Option (ℤ × ℤ)) (viewStart totalCells : ℕ) :
    List (List Cell) :=
  match trace with
  | none => []
  | some tr =>
    match tr.consensusAlign with
    | none => []
    | some align =>
      if expanded then
        [rowOf align dm hl viewStart totalCells 0,
         rowOf align dm hl viewStart totalCells 1,
         rowOf align dm hl viewStart totalCells 2]
      else
        [rowOf align dm hl viewStart totalCells 0]

/-- The channel character a sub-cell of row `j` is specified to show at
depth slot `k` of reference position `refPos` (specification-side mirror of
the rendering rule: the channel's `k`-th character when within bounds,
otherwise the gap filler; every slot is a gap filler when the entry is
absent). -/
def expectedChar (j : ℕ) (item : Option ConsensusAlignItem) (k : ℕ) : Char :=
  match item with
  | none => '-'
  | some e =>
    let arr := match j with
      | 0 => e.cons
      | 1 => e.alt1
      | _ => e.alt2
    if h : k < arr.length then arr.get ⟨k, h⟩ else '-'

end NucleotideRow

/-! The selection controller (`group-nucleotide-rows.ts`). -/

/-- The allele channel chosen for `copySequence`. -/
inductive Channel where
  | cons
  | alt1
  | alt2
deriving DecidableEq

/-- The character array of a channel in a `ConsensusAlignItem`
(`item[allele]` in the source). -/
def Channel.arrOf (c : Channel) (e : ConsensusAlignItem) : List Char :=
  match c with
  | .cons => e.cons
  | .alt1 => e.alt1
  | .alt2 => e.alt2

namespace GroupNucleotideRows

/-- Range filter of the `copySequence` loop: keep a key when there is no
highlighted range, or when its shared viewport index `key - 1` lies inside
the inclusive range. -/
def inRange (range : Option (ℤ × ℤ)) (key : ℕ) : Bool :=
  match range with
  | none => true
  | some (lo, hi) => decide (lo ≤ (key : ℤ) - 1 ∧ (key : ℤ) - 1 ≤ hi)

/-- `copySequence` (group-nucleotide-rows.ts): iterate the consensus-align
keys in ascending numeric order, keep those inside the highlighted range,
and append each entry's chosen channel characters with every gap filler
removed (`chars.join('')` followed by a global replace of the dash with the
empty string). -/
def copySequence (align : List (ℕ × ConsensusAlignItem))
    (range : Option (ℤ × ℤ)) (ch : Channel) : List Char :=
  ((align.insertionSort (fun p q => p.1 ≤ q.1)).filter
      (fun p => inRange range p.1)).flatMap
    (fun p => (ch.arrOf p.2).filter (fun c => c ≠ '-'))

/-- Specification-side formulation of the same output: positions inside the
range, taken in ascending order, each contributing its channel characters
with gap fillers stripped. -/
def copySequenceSpec (align : List (ℕ × ConsensusAlignItem))
    (range : Option (ℤ × ℤ)) (ch : Channel) : List Char :=
  ((align.filter (fun p => inRange range p.1)).insertionSort
      (fun p q => p.1 ≤ q.1)).flatMap
    (fun p => (ch.arrOf p.2).filter (fun c => c ≠ '-'))

/-- The highlighted range published while dragging from viewport index `a`
to viewport index `b` (`handleMouseEnter`:
`[Math.min(start, current), Math.max(start, current)]`). -/
def dragRange (a b : ℤ) : ℤ × ℤ :=
  (min a b, max a b)

end GroupNucleotideRows

/-! The minimap (`AnalysisMinimapComponent.handleInteraction`). -/

namespace Minimap

/-- `handleInteraction` (minimap): for a click at horizontal offset `x` in
a canvas of width `width`, with the timeline's `maxPosition = m` (finite)
and `zoom = z`:
`clickRatio = Math.max(0, Math.min(1, x / width))`;
`newPos = Math.floor(clickRatio * maxPosition) - zoom / 2`;
`newPos = Math.max(0, Math.min(newPos, maxPosition - zoom))`.
Returns the value passed to `timelineService.setPosition`. -/
def handleInteraction (x width m z : ℚ) : ℚ :=
  let clickFrac : ℚ := max 0 (min 1 (x / width))
  let newPos : ℚ := (⌊clickFrac * m⌋ : ℚ) - z / 2
  max 0 (min newPos (m - z))

/-- The full minimap click: compute `handleInteraction` from the state's
(finite) `maxPosition = m` and `zoom`, then `setPosition`. -/
def click (x width m : ℚ) (s : TimelineState) : TimelineState :=
  TimelineService.setPosition (.fin (handleInteraction x width m s.zoom)) s

end Minimap

/-! The chromatogram renderer (`sanger-chart.ts`). -/

/-- Raw trace data: the four channel amplitude arrays and the per-base peak
locations. -/
structure Trace where
  traceA : List ℚ
  traceC : List ℚ
  traceG : List ℚ
  traceT : List ℚ
  peakLocations : List ℕ
deriving DecidableEq

namespace SangerChart

/-- `maxAmplitude` (sanger-chart.ts): `100` when there is no trace,
otherwise `Math.max(maxA, maxC, maxG, maxT, 10)` where each `max*` is
`Math.max(...array)` (`-Infinity` on an empty array, modelled by `⊥` in
`WithBot ℚ`). -/
def maxAmplitude (t : Option Trace) : ℚ :=
  match t with
  | none => 100
  | some tr =>
    ((((tr.traceA.maximum ⊔ tr.traceC.maximum) ⊔ tr.traceG.maximum) ⊔
        tr.traceT.maximum) ⊔ ((10 : ℚ) : WithBot ℚ)).unbot' 0

/-- `makePath` inside `tracePaths`: the polyline points
`(i * zoomX, graphHeight - (value / maxAmp) * zoomY * graphHeight)` with
`graphHeight = height - 50`. -/
def makePath (data : List ℚ) (zX zY maxAmp h : ℚ) : List (ℚ × ℚ) :=
  data.enum.map (fun pr =>
    ((pr.1 : ℚ) * zX, (h - 50) - (pr.2 / maxAmp * zY) * (h - 50)))

/-- `tracePaths` (sanger-chart.ts): the four channel polylines, with the
A↔T and C↔G channel pairs swapped in reverse display mode. -/
def tracePaths (t : Option Trace) (zX zY h : ℚ) (reverse : Bool) :
    List (ℚ × ℚ) × List (ℚ × ℚ) × List (ℚ × ℚ) × List (ℚ × ℚ) :=
  match t with
  | none => ([], [], [], [])
  | some tr =>
    let mA := maxAmplitude (some tr)
    if reverse then
      (makePath tr.traceT zX zY mA h, makePath tr.traceG zX zY mA h,
       makePath tr.traceC zX zY mA h, makePath tr.traceA zX zY mA h)
    else
      (makePath tr.traceA zX zY mA h, makePath tr.traceC zX zY mA h,
       makePath tr.traceG zX zY mA h, makePath tr.traceT zX zY mA h)

/-- One highlight marker configuration (`highlightConfigs` element). -/
structure HighlightConfig where
  pos : ℕ
  color : String
deriving DecidableEq

/-- The chart state a `centerOnIndex` call can change: the highlight
markers and the horizontal scroll offset of the container. -/
structure ChartState where
  highlightConfigs : List HighlightConfig
  scrollLeft : ℚ
deriving DecidableEq

/-- `centerOnX`: scrolls so that content offset `x` sits at the middle of
the container (no-op in static mode). -/
def centerOnX (staticMode : Bool) (containerWidth x : ℚ) (s : ChartState) :
    ChartState :=
  if staticMode then s else { s with scrollLeft := x - containerWidth / 2 }

/-- `centerOnIndex` (sanger-chart.ts): returns unchanged when the trace is
missing or `baseIndex` is outside `peakLocations`; otherwise centers on the
base's scan position and highlights it. -/
def centerOnIndex (t : Option Trace) (zoomX : ℚ) (staticMode : Bool)
    (containerWidth : ℚ) (baseIndex : ℤ) (s : ChartState) : ChartState :=
  match t with
  | none => s
  | some tr =>
    if baseIndex < 0 ∨ (tr.peakLocations.length : ℤ) ≤ baseIndex then s
    else
      let scanIndex := tr.peakLocations.getD baseIndex.toNat 0
      let x := (scanIndex : ℚ) * zoomX
      let s1 := centerOnX staticMode containerWidth x s
      { s1 with
          highlightConfigs :=
            [{ pos := baseIndex.toNat + 1, color := "rgba(255, 255, 0, 0.5)" }] }

/-- JavaScript indexing `l[i]` returning `undefined` (here `none`) outside
bounds. -/
def jsGet (l : List ℕ) (i : ℤ) : Option ℕ :=
  if h : 0 ≤ i ∧ i.toNat < l.length then some (l.get ⟨i.toNat, h.2⟩) else none

/-- The four signal values read by `handleContextMenu`
(group-nucleotide-rows.ts) for one Sanger position `pos`:
`scanIndex = peakLocations[pos - 1]`, then `trace*[scanIndex] || 0` for
each channel — any missing sample reads as `0`. -/
def signalsAt (tr : Trace) (pos : ℤ) : ℚ × ℚ × ℚ × ℚ :=
  match jsGet tr.peakLocations (pos - 1) with
  | none => (0, 0, 0, 0)
  | some si =>
    ((tr.traceA.getD si 0), (tr.traceC.getD si 0),
     (tr.traceG.getD si 0), (tr.traceT.getD si 0))

end SangerChart

/-! Helper lemmas about the extended rationals. -/

namespace XQ

@[simp] theorem addQ_fin (a q : ℚ) : addQ (fin a) q = fin (a + q) := rfl

@[simp] theorem subQ_fin (a q : ℚ) : subQ (fin a) q = fin (a - q) := rfl

@[simp] theorem subQ_inf (q : ℚ) : subQ inf q = inf := rfl

@[simp] theorem maxX_fin (x y : ℚ) : maxX (fin x) (fin y) = fin (max x y) := rfl

@[simp] theorem maxX_fin_inf (x : ℚ) : maxX (fin x) inf = inf := rfl

@[simp] theorem minX_fin (x y : ℚ) : minX (fin x) (fin y) = fin (min x y) := rfl

@[simp] theorem minX_fin_inf (x : ℚ) : minX (fin x) inf = fin x := rfl

@[simp] theorem minX_inf (y : XQ) : minX inf y = y := by
  cases y <;> rfl

@[simp] theorem fin_le_fin (x y : ℚ) : (fin x ≤ fin y) ↔ x ≤ y := Iff.rfl

@[simp] theorem le_inf (x : XQ) : x ≤ inf := by
  cases x <;> trivial

@[simp] theorem not_inf_le_fin (y : ℚ) : ¬(inf ≤ fin y) := fun h => h

theorem le_refl (a : XQ) : a ≤ a := by
  cases a <;> simp

theorem maxX_comm (a b : XQ) : maxX a b = maxX b a := by
  cases a <;> cases b <;> simp [maxX, max_comm]

theorem zero_le_maxX_zero (x : XQ) : fin 0 ≤ maxX (fin 0) x := by
  cases x <;> simp

theorem minX_le_right (a b : XQ) : minX a b ≤ b := by
  cases a <;> cases b <;> simp [min_le_right]

theorem zero_le_minX {a b : XQ} (ha : fin 0 ≤ a) (hb : fin 0 ≤ b) :
    fin 0 ≤ minX a b := by
  cases a <;> cases b <;> simp_all [le_min_iff]

theorem addQ_le_of_le_sub {a : XQ} {m z : ℚ} (h : a ≤ fin (m - z)) :
    a.addQ z ≤ fin m := by
  cases a with
  | fin x =>
    simp only [addQ_fin, fin_le_fin] at h ⊢
    linarith
  | inf => exact absurd h (not_inf_le_fin _)

theorem clamp_idem (p mas : XQ) (h : fin 0 ≤ mas) :
    minX (maxX (fin 0) (minX (maxX (fin 0) p) mas)) mas =
      minX (maxX (fin 0) p) mas := by
  cases mas with
  | inf =>
    cases p with
    | fin x => simp [← max_assoc]
    | inf => simp [maxX]
  | fin c =>
    simp only [fin_le_fin] at h
    cases p with
    | fin x =>
      have h1 : 0 ≤ min (max 0 x) c := le_min (le_max_left 0 x) h
      simp only [maxX_fin, minX_fin]
      rw [max_eq_right h1, min_eq_left (min_le_right _ _)]
    | inf =>
      simp only [maxX_fin_inf, minX_inf, maxX_fin, minX_fin]
      rw [max_eq_right h, min_self]

end XQ

/-! Helper lemmas about the `TimelineService` operations. -/

namespace TimelineService

theorem setPosition_zoom (p : XQ) (s : TimelineState) :
    (setPosition p s).zoom = s.zoom := rfl

theorem setPosition_maxPosition (p : XQ) (s : TimelineState) :
    (setPosition p s).maxPosition = s.maxPosition := rfl

theorem setPosition_position (p : XQ) (s : TimelineState) :
    (setPosition p s).position =
      XQ.minX (XQ.maxX (.fin 0) p)
        (XQ.maxX (.fin 0) (s.maxPosition.subQ s.zoom)) := rfl

/-- Clamping the position that a `setPosition` just produced is a no-op. -/
theorem setPosition_resettle (p : XQ) (s : TimelineState) :
    setPosition (setPosition p s).position (setPosition p s) =
      setPosition p s := by
  cases s with
  | mk z pos M =>
    show (⟨z,
        XQ.minX
          (XQ.maxX (.fin 0)
            (XQ.minX (XQ.maxX (.fin 0) p) (XQ.maxX (.fin 0) (M.subQ z))))
          (XQ.maxX (.fin 0) (M.subQ z)), M⟩ : TimelineState) =
      ⟨z, XQ.minX (XQ.maxX (.fin 0) p) (XQ.maxX (.fin 0) (M.subQ z)), M⟩
    rw [XQ.clamp_idem p _ (XQ.zero_le_maxX_zero _)]

/-- `setPosition` applied twice with the same argument equals one
application. -/
theorem setPosition_setPosition (p : XQ) (s : TimelineState) :
    setPosition p (setPosition p s) = setPosition p s := rfl

/-- After any `setPosition`, the position is nonnegative, and when the
boundary is finite and at least the zoom, the window fits inside it. -/
theorem setPosition_invariant (p : XQ) (s : TimelineState) :
    XQ.fin 0 ≤ (setPosition p s).position ∧
      ∀ q : ℚ, (setPosition p s).maxPosition = .fin q →
        (setPosition p s).zoom ≤ q →
        (setPosition p s).position.addQ (setPosition p s).zoom ≤ .fin q := by
  constructor
  · rw [setPosition_position]
    exact XQ.zero_le_minX (XQ.zero_le_maxX_zero _) (XQ.zero_le_maxX_zero _)
  · intro q hq hz
    rw [setPosition_zoom] at hz ⊢
    rw [setPosition_maxPosition] at hq
    apply XQ.addQ_le_of_le_sub
    have hmas : XQ.maxX (.fin 0) (s.maxPosition.subQ s.zoom) =
        XQ.fin (q - s.zoom) := by
      rw [hq]
      simp only [XQ.subQ_fin, XQ.maxX_fin]
      rw [max_eq_right (by linarith)]
    rw [setPosition_position, hmas]
    exact XQ.minX_le_right _ _

end TimelineService

/-! Evaluation helpers on concrete finite states. -/

theorem setPosition_fin_eval (p z x m : ℚ) :
    TimelineService.setPosition (.fin p) ⟨z, .fin x, .fin m⟩ =
      ⟨z, .fin (min (max 0 p) (max 0 (m - z))), .fin m⟩ := by
  show (⟨z, XQ.minX (XQ.maxX (.fin 0) (.fin p))
      (XQ.maxX (.fin 0) (.fin (m - z))), .fin m⟩ : TimelineState) = _
  simp [max_comm]

theorem moveBy_fin_eval (d z x m : ℚ) :
    TimelineService.moveBy d ⟨z, .fin x, .fin m⟩ =
      ⟨z, .fin (min (max 0 (x + d)) (max 0 (m - z))), .fin m⟩ := by
  show TimelineService.setPosition (.fin (x + d)) ⟨z, .fin x, .fin m⟩ = _
  exact setPosition_fin_eval ..

theorem setMaxPosition_five_initial :
    TimelineService.setMaxPosition 5 TimelineService.initialState =
      ⟨100, .fin 0, .fin 5⟩ := by
  rw [TimelineService.setMaxPosition, if_neg (by norm_num)]
  show TimelineService.setPosition (.fin 0) ⟨100, .fin 0, .fin 5⟩ = _
  rw [setPosition_fin_eval]
  norm_num

/-- C1: the claimed invariant — `position ≥ 0` and, whenever `maxPosition`
is finite, `position + zoom ≤ maxPosition` after every
`setPosition`/`setZoom`/`setRange`/`moveBy` call from a reachable state —
is false: `setMaxPosition(5)` from the initial state (where `zoom = 100`)
reaches a state with finite `maxPosition = 5` and `zoom = 100`; after a
further `setPosition(0)` call the position is `0` and
`position + zoom = 100 > 5`. -/
theorem c1_counterexample :
    TimelineService.Reachable
        (TimelineService.setMaxPosition 5 TimelineService.initialState) ∧
      (TimelineService.setPosition (.fin 0)
          (TimelineService.setMaxPosition 5
            TimelineService.initialState)).maxPosition = XQ.fin 5 ∧
      ¬((TimelineService.setPosition (.fin 0)
            (TimelineService.setMaxPosition 5
              TimelineService.initialState)).position.addQ
          (TimelineService.setPosition (.fin 0)
            (TimelineService.setMaxPosition 5
              TimelineService.initialState)).zoom ≤ XQ.fin 5) := by
  refine ⟨TimelineService.Reachable.setMaxPosition 5
    TimelineService.Reachable.init, ?_, ?_⟩
  · rw [setMaxPosition_five_initial]
    rfl
  · rw [setMaxPosition_five_initial, setPosition_fin_eval]
    simp only [XQ.addQ_fin, XQ.fin_le_fin]
    norm_num

/-- C1 (amended): after every `setPosition`, `setZoom`, `setRange` or
`moveBy` call — from any state, hence from any reachable state — the
resulting `position` is nonnegative; and whenever the resulting state has a
finite `maxPosition` that is at least its `zoom`, also
`position + zoom ≤ maxPosition`.  (The extra `zoom ≤ maxPosition` guard is
what the counterexample forces: the code never shrinks `zoom` to fit a
small boundary.) -/
theorem c1_viewport_invariant (s : TimelineState) (p z a b d : ℚ) :
    (XQ.fin 0 ≤ (TimelineService.setPosition (.fin p) s).position ∧
      ∀ q : ℚ, (TimelineService.setPosition (.fin p) s).maxPosition = .fin q →
        (TimelineService.setPosition (.fin p) s).zoom ≤ q →
        (TimelineService.setPosition (.fin p) s).position.addQ
          (TimelineService.setPosition (.fin p) s).zoom ≤ .fin q) ∧
    (XQ.fin 0 ≤ (TimelineService.setZoom z s).position ∧
      ∀ q : ℚ, (TimelineService.setZoom z s).maxPosition = .fin q →
        (TimelineService.setZoom z s).zoom ≤ q →
        (TimelineService.setZoom z s).position.addQ
          (TimelineService.setZoom z s).zoom ≤ .fin q) ∧
    (XQ.fin 0 ≤ (TimelineService.setRange a b s).position ∧
      ∀ q : ℚ, (TimelineService.setRange a b s).maxPosition = .fin q →
        (TimelineService.setRange a b s).zoom ≤ q →
        (TimelineService.setRange a b s).position.addQ
          (TimelineService.setRange a b s).zoom ≤ .fin q) ∧
    (XQ.fin 0 ≤ (TimelineService.moveBy d s).position ∧
      ∀ q : ℚ, (TimelineService.moveBy d s).maxPosition = .fin q →
        (TimelineService.moveBy d s).zoom ≤ q →
        (TimelineService.moveBy d s).position.addQ
          (TimelineService.moveBy d s).zoom ≤ .fin q) :=
  ⟨TimelineService.setPosition_invariant _ _,
   TimelineService.setPosition_invariant _ _,
   TimelineService.setPosition_invariant _ _,
   TimelineService.setPosition_invariant _ _⟩

/-- Witness for the amended C1 at a concrete state and call. -/
theorem c1_viewport_invariant_witness :
    XQ.fin 0 ≤
        (TimelineService.setPosition (.fin 950)
          (⟨100, .fin 0, .fin 1000⟩ : TimelineState)).position ∧
      (TimelineService.setPosition (.fin 950)
          (⟨100, .fin 0, .fin 1000⟩ : TimelineState)).position.addQ
        (TimelineService.setPosition (.fin 950)
          (⟨100, .fin 0, .fin 1000⟩ : TimelineState)).zoom ≤ XQ.fin 1000 :=
  ⟨(c1_viewport_invariant ⟨100, .fin 0, .fin 1000⟩ 950 1 0 0 0).1.1,
   (c1_viewport_invariant ⟨100, .fin 0, .fin 1000⟩ 950 1 0 0 0).1.2 1000 rfl
     (by show (100 : ℚ) ≤ 1000; norm_num)⟩

/-- C4: the claim that every operation is idempotent is false for `moveBy`:
with `zoom = 1`, `position = 0`, `maxPosition = 1000`, one `moveBy(5)`
yields position `5` but two successive `moveBy(5)` calls yield `10`. -/
theorem c4_counterexample :
    TimelineService.moveBy 5
        (TimelineService.moveBy 5 (⟨1, .fin 0, .fin 1000⟩ : TimelineState)) ≠
      TimelineService.moveBy 5 (⟨1, .fin 0, .fin 1000⟩ : TimelineState) := by
  have h1 : TimelineService.moveBy 5 (⟨1, .fin 0, .fin 1000⟩ : TimelineState) =
      ⟨1, .fin 5, .fin 1000⟩ := by
    rw [moveBy_fin_eval]
    norm_num
  rw [h1, moveBy_fin_eval]
  simp only [ne_eq, TimelineState.mk.injEq, XQ.fin.injEq]
  norm_num

/-- C4 (amended): every `TimelineService` operation is a total function,
out-of-range inputs being clamped; `setMaxPosition`, `setZoom`,
`setPosition`, `setRange`, `scrollToBoundary`, `setHighlight` and
`clearHighlight` are idempotent — applying the same operation with the same
argument twice equals applying it once.  `moveBy` is excluded: it
accumulates its displacement (see the counterexample). -/
theorem c4_idempotent (s : TimelineState) (m z p a b : ℚ) (te : Bool)
    (h : Option (ℚ × ℚ)) :
    TimelineService.setMaxPosition m (TimelineService.setMaxPosition m s) =
        TimelineService.setMaxPosition m s ∧
      TimelineService.setZoom z (TimelineService.setZoom z s) =
        TimelineService.setZoom z s ∧
      TimelineService.setPosition (.fin p)
          (TimelineService.setPosition (.fin p) s) =
        TimelineService.setPosition (.fin p) s ∧
      TimelineService.setRange a b (TimelineService.setRange a b s) =
        TimelineService.setRange a b s ∧
      TimelineService.scrollToBoundary te
          (TimelineService.scrollToBoundary te s) =
        TimelineService.scrollToBoundary te s ∧
      TimelineService.setHighlight a b (TimelineService.setHighlight a b h) =
        TimelineService.setHighlight a b h ∧
      TimelineService.clearHighlight (TimelineService.clearHighlight h) =
        TimelineService.clearHighlight h := by
  refine ⟨?_, ?_, rfl, ?_, ?_, rfl, rfl⟩
  · by_cases hm : m ≤ 0
    · rw [TimelineService.setMaxPosition, if_pos hm,
        TimelineService.setMaxPosition, if_pos hm]
    · rw [TimelineService.setMaxPosition, if_neg hm]
      rw [TimelineService.setMaxPosition, if_neg hm]
      exact TimelineService.setPosition_resettle _ _
  · exact TimelineService.setPosition_resettle
      ({ s with zoom := max 1 z } : TimelineState).position
      { s with zoom := max 1 z }
  · rfl
  · cases te <;> rfl

/-- C5: `setPosition(p)` sets `position` to
`clamp(p, 0, max(0, maxPosition - zoom))` and leaves `zoom` and
`maxPosition` unchanged; in particular with `maxPosition = 1000` and
`zoom = 100`, `setPosition(950)` yields `position = 900`. -/
theorem c5_setPosition_clamp (s : TimelineState) (p : ℚ) :
    (TimelineService.setPosition (.fin p) s).position =
        XQ.minX (XQ.maxX (.fin p) (.fin 0))
          (XQ.maxX (.fin 0) (s.maxPosition.subQ s.zoom)) ∧
      (TimelineService.setPosition (.fin p) s).zoom = s.zoom ∧
      (TimelineService.setPosition (.fin p) s).maxPosition = s.maxPosition ∧
      (TimelineService.setPosition (.fin 950)
          (⟨100, .fin 0, .fin 1000⟩ : TimelineState)).position = .fin 900 := by
  refine ⟨?_, rfl, rfl, ?_⟩
  · rw [TimelineService.setPosition_position,
      XQ.maxX_comm (XQ.fin 0) (XQ.fin p)]
  · rw [setPosition_fin_eval]
    norm_num

/-- C6: `setRange(start, end)` sets `zoom` to `max(1, end - start)` and
`position` to `start`, then re-clamps the position by the `setPosition`
rule; whenever `end ≤ start` the resulting zoom is `1`. -/
theorem c6_setRange (s : TimelineState) (a b : ℤ) :
    (TimelineService.setRange (a : ℚ) (b : ℚ) s).zoom =
        max 1 ((b : ℚ) - (a : ℚ)) ∧
      TimelineService.setRange (a : ℚ) (b : ℚ) s =
        TimelineService.setPosition (.fin (a : ℚ))
          { s with zoom := max 1 ((b : ℚ) - (a : ℚ)),
                   position := XQ.fin (a : ℚ) } ∧
      (b ≤ a → (TimelineService.setRange (a : ℚ) (b : ℚ) s).zoom = 1) := by
  refine ⟨rfl, rfl, fun hba => ?_⟩
  show max 1 ((b : ℚ) - (a : ℚ)) = 1
  have : (b : ℚ) ≤ (a : ℚ) := Int.cast_le.mpr hba
  exact max_eq_left (by linarith)

/-- Witness for C6 with `end ≤ start` at concrete inputs. -/
theorem c6_setRange_witness :
    (3 : ℤ) ≤ 5 ∧
      (TimelineService.setRange ((5 : ℤ) : ℚ) ((3 : ℤ) : ℚ)
        (⟨100, .fin 0, .fin 1000⟩ : TimelineState)).zoom = 1 :=
  ⟨by decide,
   (c6_setRange ⟨100, .fin 0, .fin 1000⟩ 5 3).2.2 (by decide)⟩

/-! Characterization of the depth-map fold. -/

theorem foldl_dmStep_at (l : List (ℕ × ConsensusAlignItem))
    (m : ℕ → Option ℕ) (r : ℕ) :
    (l.foldl Analysis.dmStep m) r =
      if Analysis.consLensAt l r = [] then m r
      else some ((Analysis.consLensAt l r).foldl Nat.max ((m r).getD 0)) := by
  induction l generalizing m with
  | nil => simp [Analysis.consLensAt]
  | cons p l ih =>
    rw [List.foldl_cons, ih]
    by_cases hpr : p.1 = r
    · have h1 : Analysis.consLensAt (p :: l) r =
          p.2.cons.length :: Analysis.consLensAt l r := by
        simp [Analysis.consLensAt, hpr]
      have h2 : Analysis.dmStep m p r =
          some (Nat.max ((m r).getD 0) p.2.cons.length) := by
        simp [Analysis.dmStep, hpr]
      rw [h1, h2]
      by_cases hL : Analysis.consLensAt l r = []
      · simp [hL]
      · simp [hL, List.foldl_cons]
    · have h1 : Analysis.consLensAt (p :: l) r = Analysis.consLensAt l r := by
        simp [Analysis.consLensAt, hpr]
      have h2 : Analysis.dmStep m p r = m r := by
        simp only [Analysis.dmStep]
        exact if_neg (fun h => hpr h.symm)
      rw [h1, h2]

theorem foldl_dmTrack_at (ts : List Track) (m : ℕ → Option ℕ) (r : ℕ) :
    (ts.foldl Analysis.dmTrack m) r =
      if Analysis.consLens ts r = [] then m r
      else some ((Analysis.consLens ts r).foldl Nat.max ((m r).getD 0)) := by
  induction ts generalizing m with
  | nil => simp [Analysis.consLens]
  | cons t ts ih =>
    rw [List.foldl_cons, ih]
    have hsplit : Analysis.consLens (t :: ts) r =
        Analysis.consLensAt (t.consensusAlign.getD []) r ++
          Analysis.consLens ts r := by
      simp [Analysis.consLens]
    have hhead : Analysis.dmTrack m t r =
        if Analysis.consLensAt (t.consensusAlign.getD []) r = [] then m r
        else some ((Analysis.consLensAt (t.consensusAlign.getD []) r).foldl
          Nat.max ((m r).getD 0)) := by
      cases hca : t.consensusAlign with
      | none => simp [Analysis.dmTrack, hca, Analysis.consLensAt]
      | some l =>
        simp only [Analysis.dmTrack, hca, Option.getD_some]
        exact foldl_dmStep_at l m r
    rw [hsplit, hhead]
    by_cases h1 : Analysis.consLensAt (t.consensusAlign.getD []) r = []
    · simp [h1]
    · by_cases h2 : Analysis.consLens ts r = []
      · simp [h1, h2]
      · simp [h1, h2, List.foldl_append]

/-- C2: the claim is false on the code.  With the reference track and
tracks A and B carrying `cons = ['A']` at position 50 and track A
additionally carrying `alt1 = ['A','T']` there (the claim's example, depth
2 by the claim), `alignmentDepthMap` yields `some 1` at 50 — it only ever
reads `cons.length`, never the alt channels.  An entry whose `cons` array
is empty (position 60) even yields depth `0`, violating `maxDepth ≥ 1`. -/
theorem c2_counterexample :
    Analysis.alignmentDepthMap
        (some ⟨some [(50, ⟨['A'], [], [], none, none⟩)]⟩)
        [⟨some [(50, ⟨['A'], ['A', 'T'], [], none, none⟩),
                (60, ⟨[], [], [], none, none⟩)]⟩,
         ⟨some [(50, ⟨['A'], [], [], none, none⟩)]⟩] 50 = some 1 ∧
      Analysis.alignmentDepthMap
        (some ⟨some [(50, ⟨['A'], [], [], none, none⟩)]⟩)
        [⟨some [(50, ⟨['A'], ['A', 'T'], [], none, none⟩),
                (60, ⟨[], [], [], none, none⟩)]⟩,
         ⟨some [(50, ⟨['A'], [], [], none, none⟩)]⟩] 50 ≠ some 2 ∧
      Analysis.alignmentDepthMap
        (some ⟨some [(50, ⟨['A'], [], [], none, none⟩)]⟩)
        [⟨some [(50, ⟨['A'], ['A', 'T'], [], none, none⟩),
                (60, ⟨[], [], [], none, none⟩)]⟩,
         ⟨some [(50, ⟨['A'], [], [], none, none⟩)]⟩] 60 = some 0 := by
  refine ⟨?_, ?_, ?_⟩ <;> decide

/-- C2 (amended): when a reference track is loaded, the depth map assigns
to each reference position carrying at least one consensus-alignment entry
(in the reference or any loaded track) the maximum `cons.length` of those
entries — the consensus-channel length only, not the maximum allele depth
across channels, and `0` (not `≥ 1`) when every such `cons` array is
empty; positions with no entry are unmapped, and the map is empty when no
reference track is loaded. -/
theorem c2_depth_map (reference : Track) (traces : List Track) (r : ℕ) :
    Analysis.alignmentDepthMap (some reference) traces r =
        (if Analysis.consLens (reference :: traces) r = [] then none
         else some ((Analysis.consLens (reference :: traces) r).foldl
           Nat.max 0)) ∧
      Analysis.alignmentDepthMap none traces r = none := by
  constructor
  · show ((reference :: traces).foldl Analysis.dmTrack (fun _ => none)) r = _
    rw [foldl_dmTrack_at]
    rfl
  · rfl

/-- C8: the claim is false as stated: the code floors `r × maxPosition`
before subtracting `zoom / 2`.  With `maxPosition = 1000`, `zoom = 100` and
click ratio `r = 1101/2000` (so `r × maxPosition = 550.5`), the claim
prescribes `clamp(550.5 - 50, 0, 900) = 500.5`, but the resulting position
is `500`. -/
theorem c8_counterexample :
    (Minimap.click 1101 2000 1000
        (⟨100, .fin 0, .fin 1000⟩ : TimelineState)).position = XQ.fin 500 ∧
      max 0 (min ((1101 : ℚ) / 2000 * 1000 - 100 / 2) (1000 - 100)) =
        (1001 : ℚ) / 2 ∧
      (Minimap.click 1101 2000 1000
        (⟨100, .fin 0, .fin 1000⟩ : TimelineState)).position ≠
        XQ.fin (1001 / 2) := by
  have hHI : Minimap.handleInteraction 1101 2000 1000 100 = 500 := by
    show max 0 (min ((⌊max 0 (min 1 ((1101 : ℚ) / 2000)) * 1000⌋ : ℚ) -
      100 / 2) (1000 - 100)) = 500
    norm_num [min_def, max_def]
  have hpos : (Minimap.click 1101 2000 1000
      (⟨100, .fin 0, .fin 1000⟩ : TimelineState)).position = XQ.fin 500 := by
    show (TimelineService.setPosition
        (.fin (Minimap.handleInteraction 1101 2000 1000 100))
        ⟨100, .fin 0, .fin 1000⟩).position = XQ.fin 500
    rw [hHI, setPosition_fin_eval]
    show XQ.fin (min (max 0 500) (max 0 (1000 - 100))) = XQ.fin 500
    norm_num [min_def, max_def]
  refine ⟨hpos, by norm_num [min_def, max_def], ?_⟩
  rw [hpos]
  simp only [ne_eq, XQ.fin.injEq]
  norm_num

/-- C8 (amended): a minimap click at horizontal offset `x` in a canvas of
width `width` (with `0 ≤ x ≤ width`, so ratio `r = x/width ∈ [0,1]`) moves
the viewport position to `⌊r × maxPosition⌋ - zoom/2`, clamped to
`[0, maxPosition - zoom]` — the floor applied to `r × maxPosition` is what
the counterexample forces.  The claim's own example (`r = 0.95`,
`maxPosition = 1000`, `zoom = 100`) still yields position `900`. -/
theorem c8_minimap_click (s : TimelineState) (x width m : ℚ) (hx : 0 ≤ x)
    (hxw : x ≤ width) (hw : 0 < width) (hm : s.maxPosition = .fin m) :
    (Minimap.click x width m s).position =
        .fin (max 0 (min ((⌊x / width * m⌋ : ℚ) - s.zoom / 2)
          (m - s.zoom))) ∧
      (Minimap.click 1900 2000 1000
        (⟨100, .fin 0, .fin 1000⟩ : TimelineState)).position = XQ.fin 900 := by
  constructor
  · have hr : max 0 (min 1 (x / width)) = x / width := by
      have h0 : 0 ≤ x / width := div_nonneg hx hw.le
      have h1 : x / width ≤ 1 := (div_le_one hw).mpr hxw
      rw [min_eq_right h1, max_eq_right h0]
    have hHI : Minimap.handleInteraction x width m s.zoom =
        max 0 (min ((⌊x / width * m⌋ : ℚ) - s.zoom / 2) (m - s.zoom)) := by
      show max 0 (min ((⌊max 0 (min 1 (x / width)) * m⌋ : ℚ) - s.zoom / 2)
        (m - s.zoom)) = _
      rw [hr]
    show (TimelineService.setPosition
        (.fin (Minimap.handleInteraction x width m s.zoom)) s).position = _
    rw [TimelineService.setPosition_position, hm, hHI]
    simp only [XQ.subQ_fin, XQ.maxX_fin, XQ.minX_fin, XQ.fin.injEq]
    have hc0 : (0 : ℚ) ≤
        max 0 (min ((⌊x / width * m⌋ : ℚ) - s.zoom / 2) (m - s.zoom)) :=
      le_max_left _ _
    have hcle : max 0 (min ((⌊x / width * m⌋ : ℚ) - s.zoom / 2)
        (m - s.zoom)) ≤ max 0 (m - s.zoom) :=
      max_le_max (Preorder.le_refl 0) (min_le_right _ _)
    rw [max_eq_right hc0, min_eq_left hcle]
  · have hHI : Minimap.handleInteraction 1900 2000 1000 100 = 900 := by
      show max 0 (min ((⌊max 0 (min 1 ((1900 : ℚ) / 2000)) * 1000⌋ : ℚ) -
        100 / 2) (1000 - 100)) = 900
      norm_num [min_def, max_def]
    show (TimelineService.setPosition
        (.fin (Minimap.handleInteraction 1900 2000 1000 100))
        ⟨100, .fin 0, .fin 1000⟩).position = XQ.fin 900
    rw [hHI, setPosition_fin_eval]
    show XQ.fin (min (max 0 900) (max 0 (1000 - 100))) = XQ.fin 900
    norm_num [min_def, max_def]

/-- Witness for the amended C8 at the claim's own example inputs. -/
theorem c8_minimap_click_witness :
    (Minimap.click 1900 2000 1000
        (⟨100, .fin 0, .fin 1000⟩ : TimelineState)).position = XQ.fin 900 :=
  (c8_minimap_click ⟨100, .fin 0, .fin 1000⟩ 1900 2000 1000 (by norm_num)
    (by norm_num) (by norm_num) rfl).2

/-- C10: for every trace — including empty or all-zero amplitude arrays,
whose `Math.max` spread is `-Infinity` or `0` — the normalization divisor
`maxAmplitude` is at least `10` (and `100` with no trace at all), so the
per-sample scaling `value / maxAmplitude` performed by `tracePaths` never
divides by zero; the first returned path is exactly the `traceA` samples
scaled by that divisor. -/
theorem c10_max_amplitude (t : Option Trace) (tr : Trace) (zX zY h : ℚ) :
    10 ≤ SangerChart.maxAmplitude t ∧
      (SangerChart.tracePaths (some tr) zX zY h false).1 =
        tr.traceA.enum.map (fun pr =>
          ((pr.1 : ℚ) * zX,
           (h - 50) - (pr.2 / SangerChart.maxAmplitude (some tr) * zY) *
             (h - 50))) := by
  constructor
  · cases t with
    | none => norm_num [SangerChart.maxAmplitude]
    | some tr0 =>
      show 10 ≤ (((((tr0.traceA.maximum ⊔ tr0.traceC.maximum) ⊔
        tr0.traceG.maximum) ⊔ tr0.traceT.maximum) ⊔
          ((10 : ℚ) : WithBot ℚ)).unbot' 0)
      cases hW : ((((tr0.traceA.maximum ⊔ tr0.traceC.maximum) ⊔
          tr0.traceG.maximum) ⊔ tr0.traceT.maximum) ⊔
            ((10 : ℚ) : WithBot ℚ)) with
      | bot =>
        exfalso
        have h10 : ((10 : ℚ) : WithBot ℚ) ≤ ⊥ := hW ▸ le_sup_right
        simp at h10
      | coe q =>
        have h10 : ((10 : ℚ) : WithBot ℚ) ≤ (q : WithBot ℚ) :=
          hW ▸ le_sup_right
        rw [WithBot.coe_le_coe] at h10
        simpa using h10
  · rfl

/-! Helper lemmas for the depth-expansion renderer. -/

theorem countP_flatMap_eq_sum {α β : Type} (l : List α) (f : α → List β)
    (p : β → Bool) :
    (l.flatMap f).countP p = (l.map (fun a => (f a).countP p)).sum := by
  induction l with
  | nil => simp
  | cons a l ih => simp [List.flatMap_cons, List.countP_append, ih]

theorem sum_range_indicator (vs rp D : ℕ) :
    ∀ n, vs + 1 ≤ rp → rp ≤ vs + n →
      ((List.range n).map (fun i => if vs + i + 1 = rp then D else 0)).sum =
        D := by
  intro n
  induction n with
  | zero => intro h1 h2; omega
  | succ n ih =>
    intro h1 h2
    rw [List.range_succ, List.map_append, List.sum_append]
    by_cases hr : vs + n + 1 = rp
    · have hz : ((List.range n).map
          (fun i => if vs + i + 1 = rp then D else 0)).sum = 0 := by
        apply List.sum_eq_zero
        intro x hx
        rcases List.mem_map.mp hx with ⟨i, hi, rfl⟩
        have : i < n := List.mem_range.mp hi
        rw [if_neg (by omega)]
      simp [hz, hr]
    · have h2' : rp ≤ vs + n := by omega
      simp [ih h1 h2', hr]

theorem mkCell_index (j : ℕ) (item : Option ConsensusAlignItem) (rp : ℕ)
    (g : ℤ) (k : ℕ) (ih : Bool) :
    (NucleotideRow.mkCell j item rp g k ih).index = rp := by
  rcases j with _ | _ | j <;> rfl

theorem mkCell_globalIndex (j : ℕ) (item : Option ConsensusAlignItem)
    (rp : ℕ) (g : ℤ) (k : ℕ) (ih : Bool) :
    (NucleotideRow.mkCell j item rp g k ih).globalIndex = g := by
  rcases j with _ | _ | j <;> rfl

theorem mkCell_subIndex (j : ℕ) (item : Option ConsensusAlignItem)
    (rp : ℕ) (g : ℤ) (k : ℕ) (ih : Bool) :
    (NucleotideRow.mkCell j item rp g k ih).subIndex = k := by
  rcases j with _ | _ | j <;> rfl

theorem mkCell_char (j : ℕ) (item : Option ConsensusAlignItem) (rp : ℕ)
    (g : ℤ) (k : ℕ) (ih : Bool) :
    (NucleotideRow.mkCell j item rp g k ih).char =
      NucleotideRow.expectedChar j item k := by
  rcases j with _ | _ | j <;> cases item <;> rfl

/-- The depth emitted by `visibleAlleles` at `rp` equals `(dm rp).getD 1`
when the depth map carries no zero values. -/
theorem block_depth_eq (dm : ℕ → Option ℕ)
    (hdm : ∀ r d, dm r = some d → 1 ≤ d) (rp : ℕ) :
    (if ((dm rp).getD 0) = 0 then 1 else (dm rp).getD 0) = (dm rp).getD 1 := by
  cases h : dm rp with
  | none => simp
  | some d =>
    have := hdm rp d h
    simp [Option.getD_some]
    omega

theorem countP_map_mkCell (j : ℕ) (item : Option ConsensusAlignItem)
    (rp0 : ℕ) (g : ℤ) (ihl : Bool) (M rp : ℕ) :
    ((List.range M).map
        (fun k => NucleotideRow.mkCell j item rp0 g k ihl)).countP
      (fun c => c.index == rp) = if rp0 = rp then M else 0 := by
  rw [List.countP_map]
  by_cases h : rp0 = rp
  · rw [if_pos h]
    have hall : ∀ k ∈ List.range M,
        (((NucleotideRow.mkCell j item rp0 g k ihl).index == rp) : Bool) =
          true := by
      intro k _
      simp [mkCell_index, h]
    calc ((List.range M).countP
          (fun k => (NucleotideRow.mkCell j item rp0 g k ihl).index == rp))
        = (List.range M).length := List.countP_eq_length.mpr hall
      _ = M := List.length_range M
  · rw [if_neg h]
    apply List.countP_eq_zero.mpr
    intro k _
    simp [mkCell_index, h]

theorem block_countP (align : List (ℕ × ConsensusAlignItem))
    (dm : ℕ → Option ℕ) (hl : Option (ℤ × ℤ)) (vs j i rp : ℕ)
    (hdm : ∀ r d, dm r = some d → 1 ≤ d) :
    (NucleotideRow.block align dm hl vs j i).countP
        (fun c => c.index == rp) =
      if vs + i + 1 = rp then (dm rp).getD 1 else 0 := by
  simp only [NucleotideRow.block]
  rw [countP_map_mkCell]
  by_cases h : vs + i + 1 = rp
  · rw [if_pos h, if_pos h, h]
    exact block_depth_eq dm hdm rp
  · rw [if_neg h, if_neg h]

theorem rowOf_countP (align : List (ℕ × ConsensusAlignItem))
    (dm : ℕ → Option ℕ) (hl : Option (ℤ × ℤ)) (vs n j rp : ℕ)
    (hdm : ∀ r d, dm r = some d → 1 ≤ d)
    (h1 : vs + 1 ≤ rp) (h2 : rp ≤ vs + n) :
    (NucleotideRow.rowOf align dm hl vs n j).countP
      (fun c => c.index == rp) = (dm rp).getD 1 := by
  rw [NucleotideRow.rowOf, countP_flatMap_eq_sum]
  have hcong : (List.range n).map
      (fun i => (NucleotideRow.block align dm hl vs j i).countP
        (fun c => c.index == rp)) =
      (List.range n).map
        (fun i => if vs + i + 1 = rp then (dm rp).getD 1 else 0) := by
    apply List.map_congr_left
    intro i _
    exact block_countP align dm hl vs j i rp hdm
  rw [hcong]
  exact sum_range_indicator vs rp _ n h1 h2

theorem rowOf_mem_spec (align : List (ℕ × ConsensusAlignItem))
    (dm : ℕ → Option ℕ) (hl : Option (ℤ × ℤ)) (vs n j rp : ℕ) :
    ∀ c ∈ NucleotideRow.rowOf align dm hl vs n j, c.index = rp →
      c.globalIndex = (rp : ℤ) - 1 ∧
      c.char = NucleotideRow.expectedChar j (List.lookup rp align)
        c.subIndex := by
  intro c hc hidx
  rw [NucleotideRow.rowOf] at hc
  rcases List.mem_flatMap.mp hc with ⟨i, hi, hcb⟩
  simp only [NucleotideRow.block] at hcb
  rcases List.mem_map.mp hcb with ⟨k, hk, rfl⟩
  rw [mkCell_index] at hidx
  subst hidx
  refine ⟨?_, ?_⟩
  · rw [mkCell_globalIndex]
    push_cast
    ring
  · rw [mkCell_char, mkCell_subIndex]

/-- C3: for every reference position `rp` visible in the viewport window
(`viewStart + 1 ≤ rp ≤ viewStart + totalCells`) and every displayed row
`j` (the consensus row, plus the alt rows when expanded), `visibleAlleles`
emits exactly `depth = DepthMap[rp] (default 1)` sub-cells with index
`rp`; each such sub-cell shows the row's channel character at its
`subIndex` when within the entry's array and the gap filler otherwise
(every sub-cell is a gap filler when the entry is absent); and every
sub-cell at `rp` carries the shared viewport index `rp - 1`, never an
independent coordinate.  The depth map is assumed to carry no zero values,
as the `DepthMap` of the specification does. -/
theorem c3_depth_expansion (ca : Option (List (ℕ × ConsensusAlignItem)))
    (align : List (ℕ × ConsensusAlignItem)) (dm : ℕ → Option ℕ)
    (expanded : Bool) (hl : Option (ℤ × ℤ)) (vs n rp j : ℕ)
    (hca : ca = some align)
    (hdm : ∀ r d, dm r = some d → 1 ≤ d)
    (h1 : vs + 1 ≤ rp) (h2 : rp ≤ vs + n)
    (hj : j < if expanded then 3 else 1) :
    ((NucleotideRow.visibleAlleles (some ⟨ca⟩) dm expanded hl vs n).getD j
        []).countP (fun c => c.index == rp) = (dm rp).getD 1 ∧
      ∀ c ∈ (NucleotideRow.visibleAlleles (some ⟨ca⟩) dm expanded hl vs n).getD
          j [],
        c.index = rp →
          c.globalIndex = (rp : ℤ) - 1 ∧
          c.char = NucleotideRow.expectedChar j (List.lookup rp align)
            c.subIndex := by
  subst hca
  have hrow : (NucleotideRow.visibleAlleles (some ⟨some align⟩) dm expanded
      hl vs n).getD j [] = NucleotideRow.rowOf align dm hl vs n j := by
    cases expanded with
    | false =>
      have hj0 : j = 0 := by
        simp only [Bool.false_eq_true, if_false] at hj
        omega
      subst hj0
      rfl
    | true =>
      have hj3 : j < 3 := by simpa using hj
      rcases j with _ | _ | _ | j
      · rfl
      · rfl
      · rfl
      · omega
  rw [hrow]
  exact ⟨rowOf_countP align dm hl vs n j rp hdm h1 h2,
    rowOf_mem_spec align dm hl vs n j rp⟩

/-- Witness for C3 at a concrete track whose single entry at position 1
has depth 2 in the depth map. -/
theorem c3_depth_expansion_witness :
    ((NucleotideRow.visibleAlleles
        (some ⟨some [(1, ⟨['A'], ['A', 'T'], [], none, none⟩)]⟩)
        (fun r => if r = 1 then some 2 else none) false none 0 1).getD 0
      []).countP (fun c => c.index == 1) = 2 :=
  (c3_depth_expansion (some [(1, ⟨['A'], ['A', 'T'], [], none, none⟩)])
    [(1, ⟨['A'], ['A', 'T'], [], none, none⟩)]
    (fun r => if r = 1 then some 2 else none) false none 0 1 1 0 rfl
    (by
      intro r d hrd
      dsimp only at hrd
      by_cases hr : r = 1
      · rw [if_pos hr] at hrd
        cases hrd
        omega
      · rw [if_neg hr] at hrd
        cases hrd)
    (by omega) (by omega) (by norm_num)).1

/-! Helper lemmas: `filter` commutes with `insertionSort` for a total
transitive order. -/

theorem filter_orderedInsert {α : Type} (r : α → α → Prop) [DecidableRel r]
    (htrans : ∀ x y z : α, r x y → r y z → r x z)
    (p : α → Bool) (a : α) :
    ∀ l : List α, l.Pairwise (fun x y => r x y) →
      (l.orderedInsert r a).filter p =
        if p a then (l.filter p).orderedInsert r a else l.filter p := by
  intro l
  induction l with
  | nil =>
    intro _
    by_cases hpa : p a <;> simp [List.orderedInsert, hpa]
  | cons b L ih =>
    intro hsort
    have hb : ∀ x ∈ L, r b x := fun x hx => (List.pairwise_cons.mp hsort).1 x hx
    have hL : L.Pairwise (fun x y => r x y) := (List.pairwise_cons.mp hsort).2
    by_cases hab : r a b
    · simp only [List.orderedInsert, if_pos hab]
      by_cases hpa : p a
      · rw [if_pos hpa]
        rw [List.filter_cons_of_pos hpa]
        cases hfil : (b :: L).filter p with
        | nil => simp [List.orderedInsert]
        | cons h t =>
          have hmem : h ∈ (b :: L).filter p := hfil ▸ List.mem_cons_self h t
          have hh : h ∈ b :: L := (List.mem_filter.mp hmem).1
          have hah : r a h := by
            rcases List.mem_cons.mp hh with rfl | hhL
            · exact hab
            · exact htrans a b h hab (hb h hhL)
          simp only [List.orderedInsert, if_pos hah]
      · rw [if_neg hpa]
        rw [List.filter_cons_of_neg hpa]
    · have hrec := ih hL
      simp only [List.orderedInsert, if_neg hab]
      by_cases hpb : p b
      · rw [List.filter_cons_of_pos hpb, List.filter_cons_of_pos hpb, hrec]
        by_cases hpa : p a
        · rw [if_pos hpa, if_pos hpa]
          simp only [List.orderedInsert, if_neg hab]
        · rw [if_neg hpa, if_neg hpa]
      · rw [List.filter_cons_of_neg hpb, List.filter_cons_of_neg hpb, hrec]

theorem filter_insertionSort {α : Type} (r : α → α → Prop) [DecidableRel r]
    (htrans : ∀ x y z : α, r x y → r y z → r x z)
    (htot : ∀ x y : α, r x y ∨ r y x)
    (p : α → Bool) (l : List α) :
    (l.insertionSort r).filter p = (l.filter p).insertionSort r := by
  haveI : IsTrans α r := ⟨htrans⟩
  haveI : IsTotal α r := ⟨htot⟩
  induction l with
  | nil => rfl
  | cons a l ih =>
    have hsorted : (l.insertionSort r).Pairwise (fun x y => r x y) :=
      List.sorted_insertionSort r l
    rw [List.insertionSort,
      filter_orderedInsert r htrans p a _ hsorted, ih]
    by_cases hpa : p a
    · rw [if_pos hpa, List.filter_cons_of_pos hpa, List.insertionSort]
    · rw [if_neg hpa, List.filter_cons_of_neg hpa]

/-- C7: for every highlighted inclusive viewport-index range and chosen
allele channel, `copySequence` never emits the gap filler; its output is
invariant under the drag direction that produced the highlight
(`handleMouseEnter` publishes `[min(start, current), max(start, current)]`);
and it equals the specification-side formulation — the channel characters
of the positions inside the range, taken in ascending order, gap fillers
stripped. -/
theorem c7_copy_sequence (align : List (ℕ × ConsensusAlignItem))
    (range : Option (ℤ × ℤ)) (ch : Channel) (a b : ℤ) :
    '-' ∉ GroupNucleotideRows.copySequence align range ch ∧
      GroupNucleotideRows.copySequence align
          (some (GroupNucleotideRows.dragRange a b)) ch =
        GroupNucleotideRows.copySequence align
          (some (GroupNucleotideRows.dragRange b a)) ch ∧
      GroupNucleotideRows.copySequence align range ch =
        GroupNucleotideRows.copySequenceSpec align range ch := by
  refine ⟨?_, ?_, ?_⟩
  · intro hmem
    rw [GroupNucleotideRows.copySequence] at hmem
    rcases List.mem_flatMap.mp hmem with ⟨pr, _, hc⟩
    simpa using (List.mem_filter.mp hc).2
  · show GroupNucleotideRows.copySequence align (some (min a b, max a b)) ch =
      GroupNucleotideRows.copySequence align (some (min b a, max b a)) ch
    rw [min_comm, max_comm]
  · rw [GroupNucleotideRows.copySequence, GroupNucleotideRows.copySequenceSpec]
    exact congrArg
      (fun l => l.flatMap fun p => (ch.arrOf p.2).filter (fun c => c ≠ '-'))
      (filter_insertionSort (fun p q => p.1 ≤ q.1)
        (fun x y z h1 h2 => le_trans h1 h2)
        (fun x y => Nat.le_total x.1 y.1)
        (fun p => GroupNucleotideRows.inRange range p.1) align)

/-- C9: the rendering and interaction operations are total and degrade
silently: `centerOnIndex` with no trace, or with a base index outside
`peakLocations`, returns the state unchanged; a Sanger position whose scan
index falls outside `peakLocations` reads all four signals as `0`, and a
scan index beyond a channel array reads that sample as `0`; and an absent
`AlignmentEntry` at a reference position renders the gap filler in every
sub-cell of every row. -/
theorem c9_degradation :
    (∀ (zX : ℚ) (sm : Bool) (cw : ℚ) (b : ℤ) (s : SangerChart.ChartState),
        SangerChart.centerOnIndex none zX sm cw b s = s) ∧
      (∀ (tr : Trace) (zX : ℚ) (sm : Bool) (cw : ℚ) (b : ℤ)
          (s : SangerChart.ChartState),
        (b < 0 ∨ (tr.peakLocations.length : ℤ) ≤ b) →
          SangerChart.centerOnIndex (some tr) zX sm cw b s = s) ∧
      (∀ (tr : Trace) (pos : ℤ),
        (pos - 1 < 0 ∨ (tr.peakLocations.length : ℤ) ≤ pos - 1) →
          SangerChart.signalsAt tr pos = (0, 0, 0, 0)) ∧
      (∀ (tr : Trace) (pos : ℤ) (si : ℕ),
        SangerChart.jsGet tr.peakLocations (pos - 1) = some si →
          tr.traceA.length ≤ si → (SangerChart.signalsAt tr pos).1 = 0) ∧
      (∀ (align : List (ℕ × ConsensusAlignItem)) (dm : ℕ → Option ℕ)
          (expanded : Bool) (hl : Option (ℤ × ℤ)) (vs n rp j : ℕ) (c : Cell),
        List.lookup rp align = none →
          c ∈ (NucleotideRow.visibleAlleles (some ⟨some align⟩) dm expanded hl
            vs n).getD j [] →
          c.index = rp → c.char = '-') := by
  refine ⟨fun _ _ _ _ _ => rfl, ?_, ?_, ?_, ?_⟩
  · intro tr zX sm cw b s h
    simp only [SangerChart.centerOnIndex]
    rw [if_pos h]
  · intro tr pos h
    have hnone : SangerChart.jsGet tr.peakLocations (pos - 1) = none := by
      rw [SangerChart.jsGet, dif_neg]
      rintro ⟨h0, hlt⟩
      rcases h with h | h
      · omega
      · have : ((pos - 1).toNat : ℤ) = pos - 1 := Int.toNat_of_nonneg h0
        omega
    simp only [SangerChart.signalsAt, hnone]
  · intro tr pos si hsi hlen
    simp only [SangerChart.signalsAt, hsi]
    exact List.getD_eq_default _ _ hlen
  · intro align dm expanded hl vs n rp j c hlookup hc hcidx
    have hgap : ∀ j', c ∈ NucleotideRow.rowOf align dm hl vs n j' →
        c.char = '-' := by
      intro j' hcj
      have hspec := rowOf_mem_spec align dm hl vs n j' rp c hcj hcidx
      rw [hspec.2, hlookup]
      rfl
    cases expanded with
    | false =>
      rcases j with _ | j
      · exact hgap 0 hc
      · exact absurd hc (by cases j <;> simp [NucleotideRow.visibleAlleles])
    | true =>
      rcases j with _ | _ | _ | j
      · exact hgap 0 hc
      · exact hgap 1 hc
      · exact hgap 2 hc
      · exact absurd hc (by cases j <;> simp [NucleotideRow.visibleAlleles])

/-- Witness for C9 at concrete degraded inputs: an out-of-range
`centerOnIndex`, an out-of-range Sanger position, a scan index beyond the
amplitude array, and an absent alignment entry. -/
theorem c9_degradation_witness :
    SangerChart.centerOnIndex (some ⟨[0], [0], [0], [0], [10]⟩) 1 false 100 5
        ⟨[], 0⟩ = ⟨[], 0⟩ ∧
      SangerChart.signalsAt ⟨[0], [0], [0], [0], [10]⟩ 99 = (0, 0, 0, 0) ∧
      (SangerChart.signalsAt ⟨[], [], [], [], [7]⟩ 1).1 = 0 ∧
      (⟨'-', 1, 0, 0, false, false, false⟩ : Cell).char = '-' :=
  ⟨c9_degradation.2.1 ⟨[0], [0], [0], [0], [10]⟩ 1 false 100 5 ⟨[], 0⟩
      (Or.inr (by decide)),
   c9_degradation.2.2.1 ⟨[0], [0], [0], [0], [10]⟩ 99 (Or.inr (by decide)),
   c9_degradation.2.2.2.1 ⟨[], [], [], [], [7]⟩ 1 7 (by decide) (by decide),
   c9_degradation.2.2.2.2 [] (fun _ => none) false none 0 1 1 0
     ⟨'-', 1, 0, 0, false, false, false⟩ rfl (by decide) rfl⟩
